import Mathlib

/-!
Shallow embedding of the investsite repository's storage layer and of its
historical-data ingestion pipeline.

The relational store of a single entity type is modelled as a list of records;
SQLAlchemy queries built by `BaseRepository` become list filters.  Datetimes
are Unix timestamps in seconds (`Nat`); the calendar day obtained by Python's
`.date()` is the timestamp divided by 86400.  Python exceptions raised by a
query (`MultipleResultsFound` from `scalar_one_or_none`) are modelled with
`Except`.
-/

/-- Value stored in an entity attribute: a string column, a datetime-like
number, or SQL NULL. -/
inductive Val where
  | s (v : String)
  | n (v : Nat)
  | null
deriving DecidableEq

/-- A condition accepted by `BaseRepository.get_all_filtered` for one field:
either a literal value (meaning an equality test) or a Python dict, modelled
as an association list from tag to payload.  The payload of `"in_"` /
`"not_in"` is the list of values; any other tag's payload is carried but never
inspected, exactly as in the source. -/
inductive Cond where
  | lit (v : Val)
  | dct (pairs : List (String × List Val))
deriving DecidableEq

/-- The `model_class` argument of `BaseRepository`: the attribute names (for
the `hasattr(self.model_class, key)` checks), attribute access, the primary
key and the soft-delete column. -/
structure ModelC (α : Type) where
  schema : List String
  attr : α → String → Val
  idOf : α → String
  deletedAt : α → Option Nat

/-- SQL semantics of `column == value` as generated by SQLAlchemy: comparing
against a NULL literal becomes `IS NULL`, and a NULL column value matches no
non-NULL literal; both cases collapse to plain equality of `Val`. -/
def eqTest (a v : Val) : Bool := a == v

/-- SQL semantics of `column.in_(values)`: a NULL column value never matches,
and NULL elements of the value list match nothing. -/
def inTest (a : Val) (vs : List Val) : Bool :=
  match a with
  | Val.null => false
  | _ => vs.contains a

/-- SQL three-valued semantics of `~column.in_(values)`: rows whose column is
NULL, or whose value is not in the list while the list contains a NULL, are
filtered out. -/
def notInTest (a : Val) (vs : List Val) : Bool :=
  match a with
  | Val.null => false
  | _ => !vs.contains a && !vs.contains Val.null

/-- The filter (if any) appended by `get_all_filtered` for one
(key, condition) pair.  A dict condition is dispatched on the `"in_"` and
`"not_in"` tags and any other dict appends no filter at all; a literal value
appends an equality filter; an unknown attribute name appends nothing. -/
def condFilter {α : Type} (m : ModelC α) (key : String) (c : Cond) :
    Option (α → Bool) :=
  if m.schema.contains key then
    match c with
    | Cond.lit v => some (fun r => eqTest (m.attr r key) v)
    | Cond.dct pairs =>
        match pairs.lookup "in_" with
        | some vs => some (fun r => inTest (m.attr r key) vs)
        | none =>
            match pairs.lookup "not_in" with
            | some vs => some (fun r => notInTest (m.attr r key) vs)
            | none => none
  else none

/-- Conjunction of a list of row filters, as in a SQL WHERE clause. -/
def matchesFilters {α : Type} (fs : List (α → Bool)) (r : α) : Bool :=
  fs.all (fun f => f r)

/-- Stable ordered insertion, the building block of the sort used to model
ORDER BY and Python's `sorted`. -/
def insOrd {α : Type} (le : α → α → Bool) (x : α) : List α → List α
  | [] => [x]
  | y :: ys => if le x y then x :: y :: ys else y :: insOrd le x ys

/-- Stable insertion sort. -/
def sortOn {α : Type} (le : α → α → Bool) : List α → List α
  | [] => []
  | x :: xs => insOrd le x (sortOn le xs)

/-- Rank used to compare values of different kinds under ORDER BY; the exact
cross-kind dialect ordering is irrelevant to every claim. -/
def valRank : Val → Nat
  | Val.null => 0
  | Val.n _ => 1
  | Val.s _ => 2

/-- Total comparison on attribute values used for ORDER BY. -/
def valLe (a b : Val) : Bool :=
  match a, b with
  | Val.n x, Val.n y => decide (x ≤ y)
  | Val.s x, Val.s y => decide (x ≤ y)
  | _, _ => decide (valRank a ≤ valRank b)

/-- Shallow embedding of `BaseRepository.get_all_filtered`: the soft-delete
exclusion followed by the dynamically built condition filters, then the
optional ordering (skipped for unknown column names). -/
def get_all_filtered {α : Type} (m : ModelC α) (store : List α)
    (filters : List (String × Cond)) (orderBy : Option String)
    (descending : Bool) : List α :=
  let qf : List (α → Bool) :=
    (fun r => (m.deletedAt r).isNone) ::
      filters.filterMap (fun kc => condFilter m kc.1 kc.2)
  let res := store.filter (matchesFilters qf)
  match orderBy with
  | some k =>
      if m.schema.contains k then
        if descending then sortOn (fun a b => valLe (m.attr b k) (m.attr a k)) res
        else sortOn (fun a b => valLe (m.attr a k) (m.attr b k)) res
      else res
  | none => res

/-- Shallow embedding of `BaseRepository.find_by`: one equality filter per
known keyword argument, with the soft-delete exclusion appended last. -/
def find_by {α : Type} (m : ModelC α) (store : List α)
    (kwargs : List (String × Val)) : List α :=
  let fs : List (α → Bool) :=
    (kwargs.filterMap (fun kv =>
      if m.schema.contains kv.1 then
        some (fun r => eqTest (m.attr r kv.1) kv.2)
      else none)) ++ [fun r => (m.deletedAt r).isNone]
  store.filter (matchesFilters fs)

/-- Shallow embedding of `BaseRepository.find_one_by`, whose
`scalar_one_or_none` returns the row when exactly one matches, `None` when
none does, and raises `MultipleResultsFound` otherwise. -/
def find_one_by {α : Type} (m : ModelC α) (store : List α)
    (kwargs : List (String × Val)) : Except String (Option α) :=
  match find_by m store kwargs with
  | [] => Except.ok none
  | [r] => Except.ok (some r)
  | _ => Except.error "MultipleResultsFound"

/-- Shallow embedding of `BaseRepository.find_by_id` (also built on
`scalar_one_or_none`, over the id equality plus the soft-delete exclusion). -/
def find_by_id {α : Type} (m : ModelC α) (store : List α) (i : String) :
    Except String (Option α) :=
  match store.filter (fun r => m.idOf r == i && (m.deletedAt r).isNone) with
  | [] => Except.ok none
  | [r] => Except.ok (some r)
  | _ => Except.error "MultipleResultsFound"

/-- Shallow embedding of `BaseRepository.find_all`. -/
def find_all {α : Type} (m : ModelC α) (store : List α) : List α :=
  store.filter (fun r => (m.deletedAt r).isNone)

/-- Shallow embedding of `BaseRepository.count`: `SELECT COUNT` under exactly
the filters of `find_by`. -/
def count {α : Type} (m : ModelC α) (store : List α)
    (kwargs : List (String × Val)) : Nat :=
  (find_by m store kwargs).length

/-- A persisted `HistoricalStockData` row.  `trading_date` is the stored
datetime as a Unix timestamp in seconds; the calendar day extracted by
Python's `.date()` is `dayOf trading_date`. -/
structure HEntry where
  id : String
  stock_id : String
  trading_date : Nat
  variation : String
  open_price : String
  close_price : String
  min_price : String
  max_price : String
  volume : String
  deleted_at : Option Nat
deriving DecidableEq

/-- Calendar day of a timestamp, modelling `datetime.fromtimestamp(t).date()`. -/
def dayOf (t : Nat) : Nat := t / 86400

/-- Model-class metadata of `HistoricalStockData`.  The audit columns
`created_at` / `updated_at` exist for `hasattr` but are not tracked by the
embedding (no claim filters on them), so they read as NULL. -/
def histModel : ModelC HEntry where
  schema := ["id", "stock_id", "trading_date", "variation", "open_price",
             "close_price", "min_price", "max_price", "volume", "deleted_at",
             "created_at", "updated_at"]
  attr := fun r k =>
    if k = "id" then Val.s r.id
    else if k = "stock_id" then Val.s r.stock_id
    else if k = "trading_date" then Val.n r.trading_date
    else if k = "variation" then Val.s r.variation
    else if k = "open_price" then Val.s r.open_price
    else if k = "close_price" then Val.s r.close_price
    else if k = "min_price" then Val.s r.min_price
    else if k = "max_price" then Val.s r.max_price
    else if k = "volume" then Val.s r.volume
    else if k = "deleted_at" then
      (match r.deleted_at with
       | none => Val.null
       | some t => Val.n t)
    else Val.null
  idOf := fun r => r.id
  deletedAt := fun r => r.deleted_at

/-- Shallow embedding of
`HistoricalStockDataRepository.find_by_stock_id` (= `find_by(stock_id=...)`). -/
def find_by_stock_id (store : List HEntry) (sid : String) : List HEntry :=
  find_by histModel store [("stock_id", Val.s sid)]

/-- Shallow embedding of
`HistoricalStockDataRepository.find_by_stock_id_and_date_range`: the exact
filter dict passed to `get_all_filtered`, Mongo-style range tags included. -/
def find_by_stock_id_and_date_range (store : List HEntry) (sid : String)
    (start_date end_date : Nat) : List HEntry :=
  get_all_filtered histModel store
    [("stock_id", Cond.lit (Val.s sid)),
     ("trading_date", Cond.dct [("$gte", [Val.n start_date]),
                                ("$lte", [Val.n end_date])])]
    none false

/-- Shallow embedding of
`HistoricalStockDataRepository.find_latest_by_stock_id`.  The method's query
dereferences `self.model`, an attribute that is never assigned anywhere in
the repository (`BaseRepository.__init__` sets `model_class` only), so every
call raises `AttributeError` before any query reaches the database; the
intended ORDER BY `trading_date` DESC / LIMIT 1 lookup is dead code. -/
def find_latest_by_stock_id (store : List HEntry) (sid : String) :
    Except String (Option HEntry) :=
  Except.error "AttributeError"

/-- One raw entry of an externally fetched page (`StockHistoryEntry` of the
fetch service); all fields but the timestamp are opaque strings. -/
structure RawEntry where
  date_display : String
  date_timestamp : Nat
  price : String
  previous_close : String
  variation : String
  min_price : String
  max_price : String
  volume : String
deriving DecidableEq

/-- Field mapping of `HistoricalStockData.from_api_response` composed with the
save dict built in `fetch_and_save_historical_data`: the service's `price`
becomes `open_price` and `previous_close` becomes `close_price`; a fresh id
stands in for the uuid default of `create_many`. -/
def mkEntry (sid : String) (newId : String) (e : RawEntry) : HEntry where
  id := newId
  stock_id := sid
  trading_date := e.date_timestamp
  variation := e.variation
  open_price := e.price
  close_price := e.previous_close
  min_price := e.min_price
  max_price := e.max_price
  volume := e.volume
  deleted_at := none

/-- Rows created by one `save_entries` / `create_many` batch, with fresh ids
derived from the base position. -/
def mkBatch (sid : String) (base : Nat) : List RawEntry → List HEntry
  | [] => []
  | e :: es => mkEntry sid ("new" ++ toString base) e :: mkBatch sid (base + 1) es

/-- `save_entries` (= `create_many`): a single batch insert appending one new
row per staged item. -/
def save_entries (store : List HEntry) (sid : String)
    (toSave : List RawEntry) : List HEntry :=
  store ++ mkBatch sid store.length toSave

/-- The per-entry loop of one page of `fetch_and_save_historical_data`:
returns the updated known-dates set, the entries staged for saving (in page
order) and the number of duplicates skipped.  The Python set of dates is
modelled as a list used only through membership; a novel day is added
immediately, before the next entry is examined. -/
def procEntries (dates : List Nat) : List RawEntry → List Nat × List RawEntry × Nat
  | [] => (dates, [], 0)
  | e :: es =>
      if dayOf e.date_timestamp ∈ dates then
        let r := procEntries dates es
        (r.1, r.2.1, r.2.2 + 1)
      else
        let r := procEntries (dayOf e.date_timestamp :: dates) es
        (r.1, e :: r.2.1, r.2.2)

/-- Mutable state of one ingestion run across its page loop. -/
structure RunState where
  store : List HEntry
  dates : List Nat
  saved : Nat
  dups : Nat
  errs : List String
  idx : Nat

/-- One iteration of the page loop: a failed fetch records one error message
and moves on; a successful fetch stages the novel entries and persists them by
one bulk-create call for this page. -/
def runStep (sid : String) (st : RunState) (page : Option (List RawEntry)) :
    RunState :=
  match page with
  | none =>
      { st with
        errs := st.errs ++ ["Failed to fetch page " ++ toString st.idx]
        idx := st.idx + 1 }
  | some raw =>
      let r := procEntries st.dates raw
      { store := if r.2.1.isEmpty then st.store else save_entries st.store sid r.2.1
        dates := r.1
        saved := st.saved + r.2.1.length
        dups := st.dups + r.2.2
        errs := st.errs
        idx := st.idx + 1 }

/-- The sequential page loop of one ingestion run. -/
def runPages (sid : String) (st : RunState) :
    List (Option (List RawEntry)) → RunState
  | [] => st
  | p :: ps => runPages sid (runStep sid st p) ps

/-- The summary dict returned by `fetch_and_save_historical_data`. -/
structure RunResult where
  success : Bool
  entries_saved : Nat
  duplicates_skipped : Nat
  pages_fetched : Nat
  errors : Option (List String)
deriving DecidableEq

/-- Shallow embedding of
`HistoricalStockDataDomain.fetch_and_save_historical_data` for one stock id.
The external fetch is an input: one `Option (List RawEntry)` per requested
page, `none` modelling a page whose fetch failed (the service returns `None`).
Returns the new store together with the result summary. -/
def fetch_and_save_historical_data (store : List HEntry) (sid : String)
    (pages : List (Option (List RawEntry))) : List HEntry × RunResult :=
  let existing := find_by_stock_id store sid
  let st := runPages sid
    { store := store
      dates := existing.map (fun e => dayOf e.trading_date)
      saved := 0
      dups := 0
      errs := []
      idx := 0 } pages
  (st.store,
   { success := decide (0 < st.saved) || decide (0 < st.dups)
     entries_saved := st.saved
     duplicates_skipped := st.dups
     pages_fetched := pages.length
     errors := if st.errs.isEmpty then none else some st.errs })

/-- A persisted `Stocks` row. -/
structure StockRec where
  id : String
  name : String
  code : String
  company : Option String
  url : Option String
  url_news : Option String
  deleted_at : Option Nat
deriving DecidableEq

/-- Conversion of a nullable string column to an attribute value. -/
def optVal : Option String → Val
  | none => Val.null
  | some v => Val.s v

/-- Model-class metadata of `Stocks` (audit columns again read as NULL). -/
def stocksModel : ModelC StockRec where
  schema := ["id", "name", "code", "company", "url", "url_news", "deleted_at",
             "created_at", "updated_at"]
  attr := fun r k =>
    if k = "id" then Val.s r.id
    else if k = "name" then Val.s r.name
    else if k = "code" then Val.s r.code
    else if k = "company" then optVal r.company
    else if k = "url" then optVal r.url
    else if k = "url_news" then optVal r.url_news
    else if k = "deleted_at" then
      (match r.deleted_at with
       | none => Val.null
       | some t => Val.n t)
    else Val.null
  idOf := fun r => r.id
  deletedAt := fun r => r.deleted_at

/-- Shallow embedding of `StocksRepository.find_by_code`
(= `find_one_by(code=...)`). -/
def find_by_code (store : List StockRec) (c : String) :
    Except String (Option StockRec) :=
  find_one_by stocksModel store [("code", Val.s c)]

/-- One input dict of `bulk_create_stocks`; `code = none` models a dict
without a `'code'` key. -/
structure StockIn where
  name : String
  code : Option String
  company : Option String
deriving DecidableEq

/-- Python truthiness of an optional string field. -/
def truthy : Option String → Bool
  | none => false
  | some v => !(v == "")

/-- The per-input loop of `bulk_create_stocks`: inputs without a code are
skipped; an input whose code already exists may enrich a blank `company`
field of the stored row (mutating the store mid-loop, as the source commits
inside the loop); an input whose code is absent from the store is staged for
the final batch insert.  A `MultipleResultsFound` raised by `find_by_code`
propagates. -/
def bulkLoop (store : List StockRec) (staged : List StockIn) :
    List StockIn → Except String (List StockRec × List StockIn)
  | [] => Except.ok (store, staged)
  | sd :: rest =>
      match sd.code with
      | none => bulkLoop store staged rest
      | some c =>
          match find_by_code store c with
          | Except.error msg => Except.error msg
          | Except.ok (some ex) =>
              if truthy sd.company && !(truthy ex.company) then
                bulkLoop
                  (store.map (fun r =>
                    if r.id == ex.id then { r with company := sd.company } else r))
                  staged rest
              else bulkLoop store staged rest
          | Except.ok none => bulkLoop store (staged ++ [sd]) rest

/-- Rows created by the final `create_many` batch of `bulk_create_stocks`;
staged inputs always carry a code, so `getD` never fires on the inputs the
loop produces. -/
def mkStockBatch (base : Nat) : List StockIn → List StockRec
  | [] => []
  | sd :: rest =>
      { id := "new" ++ toString base
        name := sd.name
        code := sd.code.getD ""
        company := sd.company
        url := none
        url_news := none
        deleted_at := none } :: mkStockBatch (base + 1) rest

/-- Shallow embedding of `StocksRepository.bulk_create_stocks`: returns the
final store together with the list of newly created rows. -/
def bulk_create_stocks (store : List StockRec) (inputs : List StockIn) :
    Except String (List StockRec × List StockRec) :=
  match bulkLoop store [] inputs with
  | Except.error msg => Except.error msg
  | Except.ok (store', staged) =>
      let created := mkStockBatch store'.length staged
      Except.ok (store' ++ created, created)

/-- Value of a digit character. -/
def digToNat (c : Char) : Nat := c.toNat - 48

/-- Value of a digit string, `none` on any non-digit character. -/
def digitsValAux (acc : Nat) : List Char → Option Nat
  | [] => some acc
  | c :: cs =>
      if c.isDigit then digitsValAux (acc * 10 + digToNat c) cs else none

/-- Split at the first dot: integer-part characters, and the characters after
the dot when a dot occurs (a second dot is left in place and later rejected by
the digit scan, as `float()` rejects it). -/
def splitDot : List Char → List Char × Option (List Char)
  | [] => ([], none)
  | c :: rest =>
      if c = '.' then ([], some rest)
      else
        let r := splitDot rest
        (c :: r.1, r.2)

/-- Model of Python `float(s.replace(',', '.'))` as used on the variation
strings, restricted to plain decimal literals (optional sign, digits, at most
one dot, at least one digit): returns the exact rational value. -/
def parseDec (s : String) : Option ℚ :=
  let cs0 := s.data.map (fun c => if c = ',' then '.' else c)
  let sgn : Bool × List Char :=
    match cs0 with
    | '-' :: rest => (true, rest)
    | '+' :: rest => (false, rest)
    | _ => (false, cs0)
  let sp := splitDot sgn.2
  let fracCs := sp.2.getD []
  if sp.1.isEmpty && fracCs.isEmpty then none
  else
    match digitsValAux 0 sp.1, digitsValAux 0 fracCs with
    | some ip, some fp =>
        let mag : ℚ := mkRat (ip * 10 ^ fracCs.length + fp) (10 ^ fracCs.length)
        some (if sgn.1 then -mag else mag)
    | _, _ => none

/-- Exact subtraction on ℚ written through `Rat.divInt` so that concrete runs
reduce definitionally; proved equal to `Sub.sub` below. -/
def qSub (a b : ℚ) : ℚ := Rat.divInt (a.num * b.den - b.num * a.den) (a.den * b.den)

/-- Exact multiplication on ℚ written through `Rat.divInt`. -/
def qMul (a b : ℚ) : ℚ := Rat.divInt (a.num * b.num) (a.den * b.den)

/-- Exact division on ℚ written through `Rat.divInt`. -/
def qDiv (a b : ℚ) : ℚ := Rat.divInt (a.num * b.den) (a.den * b.num)

/-- Round to the nearest integer, ties to even: the semantics of Python's
`round` on exact values. -/
def roundHalfEven (q : ℚ) : ℤ :=
  let fl := Int.fdiv q.num q.den
  let r := Int.fmod q.num q.den
  if 2 * r < (q.den : ℤ) then fl
  else if (q.den : ℤ) < 2 * r then fl + 1
  else if fl % 2 = 0 then fl else fl + 1

/-- Python `round(q, 2)`. -/
def round2 (q : ℚ) : ℚ := mkRat (roundHalfEven (qMul q 100)) 100

/-- Result dict of `get_price_variation`: the failure shape carries the error
message, the success shape the reported fields (dates as timestamps, the two
rounded variations as exact rationals). -/
inductive PVResult where
  | failure (msg : String)
  | ok (stock_id : String) (days : Nat) (start_date end_date : Nat)
      (start_price end_price : String) (absolute percentage : ℚ)
deriving DecidableEq

/-- Shallow embedding of `HistoricalStockDataDomain.get_price_variation`.
The method first calls `find_latest_by_stock_id`, whose unconditional
`AttributeError` is raised outside the try/except (which wraps only the
arithmetic and catches only `ValueError`/`TypeError`), so the exception
propagates out of every call.  The rest of the body — window start
`end - days` (truncated at 0 by Nat subtraction; irrelevant for realistic
timestamps), the (broken) range query, Python `sorted` by date, the
comma-tolerant parse and the rounded variation arithmetic with its explicit
zero guard — is embedded faithfully below but is unreachable, as in the
source.  The `ValueError` branch message abstracts the interpolated
exception text. -/
def get_price_variation (store : List HEntry) (sid : String) (days : Nat) :
    Except String PVResult :=
  match find_latest_by_stock_id store sid with
  | Except.error msg => Except.error msg
  | Except.ok none =>
      Except.ok (PVResult.failure "No historical data available for this stock")
  | Except.ok (some latest) =>
      let end_date := latest.trading_date
      let start_date := end_date - days * 86400
      match find_by_stock_id_and_date_range store sid start_date end_date with
      | [] => Except.ok (PVResult.failure
          ("No historical data available for the last " ++ toString days ++ " days"))
      | h :: t =>
          let earliest :=
            (sortOn (fun a b => decide (a.trading_date ≤ b.trading_date)) (h :: t)).headD h
          match parseDec latest.variation, parseDec earliest.variation with
          | some lp, some ep =>
              let ab := qSub lp ep
              let pct := if ep = 0 then (0 : ℚ) else qMul (qDiv ab ep) 100
              Except.ok (PVResult.ok sid days earliest.trading_date
                latest.trading_date earliest.variation latest.variation
                (round2 ab) (round2 pct))
          | _, _ =>
              Except.ok (PVResult.failure "Error calculating price variation")

/-- Day-count of a stock: number of persisted non-deleted rows of the stock
whose trading date falls on the calendar day. -/
def countSD (store : List HEntry) (sid : String) (d : Nat) : Nat :=
  (store.filter (fun r =>
    r.stock_id == sid && r.deleted_at.isNone && dayOf r.trading_date == d)).length

/-- Whether some persisted non-deleted row of the stock covers the day. -/
def hasDay (store : List HEntry) (sid : String) (d : Nat) : Bool :=
  store.any (fun r =>
    r.stock_id == sid && r.deleted_at.isNone && dayOf r.trading_date == d)

/-- Number of raw entries of a page whose timestamp falls on the day. -/
def countFetch (d : Nat) (raw : List RawEntry) : Nat :=
  (raw.filter (fun e => dayOf e.date_timestamp == d)).length

/-- Number of raw entries with the day across the successfully fetched pages. -/
def countFetchPages (d : Nat) (pages : List (Option (List RawEntry))) : Nat :=
  (pages.map (fun p =>
    match p with
    | none => 0
    | some raw => countFetch d raw)).sum

/-- Total number of raw entries across the successfully fetched pages. -/
def totalFetched (pages : List (Option (List RawEntry))) : Nat :=
  (pages.map (fun p =>
    match p with
    | none => 0
    | some raw => raw.length)).sum

/-- The per-page error messages of a run starting at a page index. -/
def pageErrors (i : Nat) : List (Option (List RawEntry)) → List String
  | [] => []
  | none :: ps => ("Failed to fetch page " ++ toString i) :: pageErrors (i + 1) ps
  | some _ :: ps => pageErrors (i + 1) ps

/-- Number of pages whose fetch failed. -/
def failedCount (pages : List (Option (List RawEntry))) : Nat :=
  (pages.filter (fun p => p.isNone)).length

/-- A sequence of ingestion runs, each given by a stock id and its fetched
pages, applied to the store in order. -/
def applyRuns (store : List HEntry) :
    List (String × List (Option (List RawEntry))) → List HEntry
  | [] => store
  | (sid, pages) :: rest =>
      applyRuns (fetch_and_save_historical_data store sid pages).1 rest

theorem mem_insOrd {α : Type} (le : α → α → Bool) (x : α) (l : List α) (y : α) :
    y ∈ insOrd le x l ↔ y = x ∨ y ∈ l := by
  induction l with
  | nil => simp [insOrd]
  | cons a as ih =>
      by_cases h : le x a = true <;> simp [insOrd, h, ih] <;> tauto

theorem mem_sortOn {α : Type} (le : α → α → Bool) (l : List α) (y : α) :
    y ∈ sortOn le l ↔ y ∈ l := by
  induction l with
  | nil => simp [sortOn]
  | cons a as ih => simp [sortOn, mem_insOrd, ih]

theorem beq_val_s (x y : String) : (Val.s x == Val.s y) = (x == y) := by
  rcases eq_or_ne x y with h | h <;> simp [h]

theorem find_by_stock_id_eq (store : List HEntry) (sid : String) :
    find_by_stock_id store sid
      = store.filter (fun r => r.stock_id == sid && r.deleted_at.isNone) := by
  unfold find_by_stock_id find_by
  apply List.filter_congr
  intro r _
  simp [matchesFilters, eqTest, histModel, beq_val_s]

theorem find_by_code_eq (store : List StockRec) (c : String) :
    find_by stocksModel store [("code", Val.s c)]
      = store.filter (fun r => r.code == c && r.deleted_at.isNone) := by
  unfold find_by
  apply List.filter_congr
  intro r _
  simp [matchesFilters, eqTest, stocksModel, beq_val_s]

theorem hasDay_iff (store : List HEntry) (sid : String) (d : Nat) :
    hasDay store sid d = true
      ↔ ∃ r ∈ store, r.stock_id = sid ∧ r.deleted_at = none
          ∧ dayOf r.trading_date = d := by
  unfold hasDay
  rw [List.any_eq_true]
  constructor
  · rintro ⟨r, hr, hp⟩
    rw [Bool.and_eq_true, Bool.and_eq_true] at hp
    exact ⟨r, hr, by simpa using hp.1.1, by simpa using hp.1.2, by simpa using hp.2⟩
  · rintro ⟨r, hr, h1, h2, h3⟩
    exact ⟨r, hr, by simp [h1, h2, h3]⟩

theorem mem_dates0 (store : List HEntry) (sid : String) (x : Nat) :
    x ∈ (find_by_stock_id store sid).map (fun e => dayOf e.trading_date)
      ↔ hasDay store sid x = true := by
  rw [find_by_stock_id_eq, hasDay_iff, List.mem_map]
  constructor
  · rintro ⟨e, he, hx⟩
    rw [List.mem_filter, Bool.and_eq_true] at he
    exact ⟨e, he.1, by simpa using he.2.1, by simpa using he.2.2, hx⟩
  · rintro ⟨r, hr, h1, h2, h3⟩
    exact ⟨r, List.mem_filter.mpr ⟨hr, by simp [h1, h2]⟩, h3⟩

theorem countSD_append (a b : List HEntry) (sid : String) (d : Nat) :
    countSD (a ++ b) sid d = countSD a sid d + countSD b sid d := by
  simp [countSD, List.filter_append]

theorem hasDay_append (a b : List HEntry) (sid : String) (d : Nat) :
    hasDay (a ++ b) sid d = (hasDay a sid d || hasDay b sid d) := by
  simp [hasDay, List.any_append]

theorem procEntries_dates_iff (dates : List Nat) (raw : List RawEntry) (x : Nat) :
    x ∈ (procEntries dates raw).1
      ↔ x ∈ dates ∨ ∃ e ∈ (procEntries dates raw).2.1, dayOf e.date_timestamp = x := by
  induction raw generalizing dates with
  | nil => simp [procEntries]
  | cons e es ih =>
      by_cases h : dayOf e.date_timestamp ∈ dates
      · simp only [procEntries, if_pos h]
        rw [ih]
      · simp only [procEntries, if_neg h]
        rw [ih]
        simp only [List.mem_cons, List.mem_cons]
        constructor
        · rintro (⟨rfl | hx⟩ | ⟨a, ha, hd⟩)
          · right; exact ⟨e, Or.inl rfl, rfl⟩
          · left; exact hx
          · right; exact ⟨a, Or.inr ha, hd⟩
        · rintro (hx | ⟨a, rfl | ha, hd⟩)
          · left; right; exact hx
          · left; left; exact hd.symm
          · right; exact ⟨a, ha, hd⟩

theorem procEntries_dates_mono (dates : List Nat) (raw : List RawEntry) (x : Nat)
    (h : x ∈ dates) : x ∈ (procEntries dates raw).1 :=
  (procEntries_dates_iff dates raw x).mpr (Or.inl h)

theorem procEntries_fetched_mem (dates : List Nat) (raw : List RawEntry)
    (e : RawEntry) (h : e ∈ raw) :
    dayOf e.date_timestamp ∈ (procEntries dates raw).1 := by
  induction raw generalizing dates with
  | nil => cases h
  | cons a as ih =>
      rcases List.mem_cons.mp h with rfl | h'
      · by_cases hd : dayOf e.date_timestamp ∈ dates
        · simp only [procEntries, if_pos hd]
          exact procEntries_dates_mono dates as _ hd
        · simp only [procEntries, if_neg hd]
          exact procEntries_dates_mono _ as _ (List.mem_cons_self _ _)
      · by_cases hd : dayOf a.date_timestamp ∈ dates
        · simp only [procEntries, if_pos hd]
          exact ih dates h'
        · simp only [procEntries, if_neg hd]
          exact ih _ h'

theorem procEntries_countFetch_mem (dates : List Nat) (raw : List RawEntry)
    (d : Nat) (h : d ∈ dates) :
    countFetch d (procEntries dates raw).2.1 = 0 := by
  induction raw generalizing dates with
  | nil => simp [procEntries, countFetch]
  | cons e es ih =>
      by_cases hd : dayOf e.date_timestamp ∈ dates
      · simp only [procEntries, if_pos hd]
        exact ih dates h
      · simp only [procEntries, if_neg hd]
        have hne : dayOf e.date_timestamp ≠ d := fun hc => hd (hc ▸ h)
        have := ih (dayOf e.date_timestamp :: dates) (List.mem_cons_of_mem _ h)
        simpa [countFetch, hne] using this

theorem procEntries_countFetch_novel (dates : List Nat) (raw : List RawEntry)
    (d : Nat) (h : d ∉ dates) :
    countFetch d (procEntries dates raw).2.1
      = if d ∈ (procEntries dates raw).1 then 1 else 0 := by
  induction raw generalizing dates with
  | nil => simp [procEntries, countFetch, h]
  | cons e es ih =>
      by_cases hd : dayOf e.date_timestamp ∈ dates
      · simp only [procEntries, if_pos hd]
        exact ih dates h
      · simp only [procEntries, if_neg hd]
        by_cases he : dayOf e.date_timestamp = d
        · subst he
          have hmem : dayOf e.date_timestamp ∈ dayOf e.date_timestamp :: dates :=
            List.mem_cons_self _ _
          have h1 := procEntries_countFetch_mem
            (dayOf e.date_timestamp :: dates) es _ hmem
          have h2 := procEntries_dates_mono (dayOf e.date_timestamp :: dates) es _ hmem
          simp only [countFetch, List.filter_cons, beq_self_eq_true, if_true,
            List.length_cons, if_pos h2]
          simp only [countFetch] at h1
          omega
        · have h' : d ∉ dayOf e.date_timestamp :: dates := by
            intro hc
            rcases List.mem_cons.mp hc with hc' | hc'
            · exact he hc'.symm
            · exact h hc'
          have := ih (dayOf e.date_timestamp :: dates) h'
          simpa [countFetch, he] using this

theorem procEntries_len (dates : List Nat) (raw : List RawEntry) :
    (procEntries dates raw).2.1.length + (procEntries dates raw).2.2 = raw.length := by
  induction raw generalizing dates with
  | nil => simp [procEntries]
  | cons e es ih =>
      by_cases hd : dayOf e.date_timestamp ∈ dates
      · simp only [procEntries, if_pos hd, List.length_cons]
        rw [← Nat.add_assoc, ih dates]
      · simp only [procEntries, if_neg hd, List.length_cons]
        rw [Nat.succ_add, ih _]

theorem procEntries_all_dup (dates : List Nat) (raw : List RawEntry)
    (h : ∀ e ∈ raw, dayOf e.date_timestamp ∈ dates) :
    procEntries dates raw = (dates, [], raw.length) := by
  induction raw with
  | nil => simp [procEntries]
  | cons e es ih =>
      have hd := h e (List.mem_cons_self _ _)
      simp only [procEntries, if_pos hd]
      rw [ih (fun a ha => h a (List.mem_cons_of_mem _ ha))]
      simp

theorem procEntries_dups_ge (dates : List Nat) (raw : List RawEntry) (d : Nat) :
    countFetch d raw + (if d ∈ dates then 1 else 0)
      ≤ (procEntries dates raw).2.2 + (if d ∈ (procEntries dates raw).1 then 1 else 0) := by
  induction raw generalizing dates with
  | nil => simp [procEntries, countFetch]
  | cons e es ih =>
      by_cases hd : dayOf e.date_timestamp ∈ dates
      · simp only [procEntries, if_pos hd]
        by_cases he : dayOf e.date_timestamp = d
        · have hdd : d ∈ dates := he ▸ hd
          have := ih dates
          simp only [countFetch, List.filter_cons] at *
          simp [he, hdd] at this ⊢
          omega
        · have := ih dates
          simp only [countFetch, List.filter_cons] at *
          simp [he] at this ⊢
          omega
      · simp only [procEntries, if_neg hd]
        by_cases he : dayOf e.date_timestamp = d
        · have hnd : d ∉ dates := he ▸ hd
          have hmem : d ∈ dayOf e.date_timestamp :: dates := by
            rw [he]; exact List.mem_cons_self _ _
          have := ih (dayOf e.date_timestamp :: dates)
          simp only [countFetch, List.filter_cons] at *
          simp [he, hnd, hmem] at this ⊢
          omega
        · have := ih (dayOf e.date_timestamp :: dates)
          have hiff : (d ∈ dayOf e.date_timestamp :: dates) ↔ d ∈ dates := by
            simp [List.mem_cons]
            intro hc
            exact absurd hc.symm he
          simp only [countFetch, List.filter_cons] at *
          simp [he, hiff] at this ⊢
          omega

theorem countSD_cons (r : HEntry) (l : List HEntry) (s : String) (d : Nat) :
    countSD (r :: l) s d
      = (if r.stock_id == s && r.deleted_at.isNone && dayOf r.trading_date == d
         then 1 else 0) + countSD l s d := by
  simp only [countSD, List.filter_cons]
  by_cases h : (r.stock_id == s && r.deleted_at.isNone && dayOf r.trading_date == d) = true
  · simp [h, Nat.add_comm]
  · simp [h]

theorem countFetch_cons (d : Nat) (e : RawEntry) (es : List RawEntry) :
    countFetch d (e :: es)
      = (if dayOf e.date_timestamp == d then 1 else 0) + countFetch d es := by
  simp only [countFetch, List.filter_cons]
  by_cases h : (dayOf e.date_timestamp == d) = true
  · simp [h, Nat.add_comm]
  · simp [h]

theorem mkBatch_countSD (sid : String) (base : Nat) (ts : List RawEntry)
    (s : String) (d : Nat) :
    countSD (mkBatch sid base ts) s d = if s = sid then countFetch d ts else 0 := by
  induction ts generalizing base with
  | nil => simp [mkBatch, countSD, countFetch]
  | cons e es ih =>
      rw [mkBatch, countSD_cons, ih (base + 1), countFetch_cons]
      by_cases hs : s = sid
      · subst hs
        simp [mkEntry]
      · have hb : (sid == s) = false := by
          simp [beq_eq_false_iff_ne]
          exact fun hc => hs hc.symm
        simp [mkEntry, hb, hs]

theorem countSD_save_entries (store : List HEntry) (sid : String)
    (ts : List RawEntry) (s : String) (d : Nat) :
    countSD (save_entries store sid ts) s d
      = countSD store s d + (if s = sid then countFetch d ts else 0) := by
  rw [save_entries, countSD_append, mkBatch_countSD]

theorem mkBatch_mem {sid : String} {base : Nat} {ts : List RawEntry} {r : HEntry}
    (h : r ∈ mkBatch sid base ts) :
    r.stock_id = sid ∧ r.deleted_at = none
      ∧ ∃ e ∈ ts, r.trading_date = e.date_timestamp := by
  induction ts generalizing base with
  | nil => cases h
  | cons e es ih =>
      rcases List.mem_cons.mp h with rfl | h'
      · exact ⟨rfl, rfl, e, List.mem_cons_self _ _, rfl⟩
      · obtain ⟨h1, h2, a, ha, h3⟩ := ih h'
        exact ⟨h1, h2, a, List.mem_cons_of_mem _ ha, h3⟩

theorem mkBatch_hasDay (sid : String) (base : Nat) (ts : List RawEntry) (d : Nat)
    (h : ∃ e ∈ ts, dayOf e.date_timestamp = d) :
    hasDay (mkBatch sid base ts) sid d = true := by
  induction ts generalizing base with
  | nil => obtain ⟨e, he, _⟩ := h; cases he
  | cons e es ih =>
      obtain ⟨a, ha, hd⟩ := h
      rcases List.mem_cons.mp ha with rfl | ha'
      · rw [mkBatch]
        rw [hasDay, List.any_cons]
        simp [mkEntry, hd]
      · rw [mkBatch, hasDay, List.any_cons]
        have := ih (base + 1) ⟨a, ha', hd⟩
        rw [hasDay] at this
        simp [this]

/-- Dedup invariant of a run state: every persisted non-deleted row of the
stock has its day in the known-dates set. -/
def InvR (sid : String) (st : RunState) : Prop :=
  ∀ r ∈ st.store, r.stock_id = sid → r.deleted_at = none
    → dayOf r.trading_date ∈ st.dates

theorem countSD_InvR_zero (sid : String) (st : RunState) (d : Nat)
    (h : InvR sid st) (hd : d ∉ st.dates) : countSD st.store sid d = 0 := by
  rw [countSD, List.length_eq_zero, List.filter_eq_nil_iff]
  intro r hr hc
  rw [Bool.and_eq_true, Bool.and_eq_true] at hc
  have h1 : r.stock_id = sid := by simpa using hc.1.1
  have h2 : r.deleted_at = none := by simpa using hc.1.2
  have h3 : dayOf r.trading_date = d := by simpa using hc.2
  exact hd (h3 ▸ h r hr h1 h2)

theorem runPages_dates_mono (sid : String) (st : RunState)
    (ps : List (Option (List RawEntry))) (x : Nat) (h : x ∈ st.dates) :
    x ∈ (runPages sid st ps).dates := by
  induction ps generalizing st with
  | nil => exact h
  | cons p ps ih =>
      cases p with
      | none => exact ih _ h
      | some raw => exact ih _ (procEntries_dates_mono _ raw x h)

theorem runPages_fetched_mem (sid : String) (st : RunState)
    (ps : List (Option (List RawEntry))) (raw : List RawEntry) (e : RawEntry)
    (hp : some raw ∈ ps) (he : e ∈ raw) :
    dayOf e.date_timestamp ∈ (runPages sid st ps).dates := by
  induction ps generalizing st with
  | nil => cases hp
  | cons p ps ih =>
      rcases List.mem_cons.mp hp with rfl | hp'
      · exact runPages_dates_mono sid _ ps _
          (procEntries_fetched_mem st.dates raw e he)
      · exact ih _ hp'

theorem InvR_runStep (sid : String) (st : RunState)
    (p : Option (List RawEntry)) (h : InvR sid st) :
    InvR sid (runStep sid st p) := by
  cases p with
  | none => exact fun r hr h1 h2 => h r hr h1 h2
  | some raw =>
      intro r hr h1 h2
      show dayOf r.trading_date ∈ (procEntries st.dates raw).1
      by_cases hemp : (procEntries st.dates raw).2.1.isEmpty = true
      · have hr' : r ∈ st.store := by simpa [runStep, hemp] using hr
        exact procEntries_dates_mono _ _ _ (h r hr' h1 h2)
      · have hr' : r ∈ st.store
            ++ mkBatch sid st.store.length (procEntries st.dates raw).2.1 := by
          simpa [runStep, save_entries, hemp] using hr
        rcases List.mem_append.mp hr' with hA | hB
        · exact procEntries_dates_mono _ _ _ (h r hA h1 h2)
        · obtain ⟨_, _, a, ha, h3⟩ := mkBatch_mem hB
          rw [h3]
          exact (procEntries_dates_iff st.dates raw _).mpr (Or.inr ⟨a, ha, rfl⟩)

theorem countSD_runStep_some (sid : String) (st : RunState)
    (raw : List RawEntry) (s : String) (d : Nat) :
    countSD (runStep sid st (some raw)).store s d
      = countSD st.store s d
        + (if s = sid then countFetch d (procEntries st.dates raw).2.1 else 0) := by
  by_cases hemp : (procEntries st.dates raw).2.1.isEmpty = true
  · have hnil : (procEntries st.dates raw).2.1 = [] := by
      cases hcs : (procEntries st.dates raw).2.1 with
      | nil => rfl
      | cons a as => rw [hcs] at hemp; cases hemp
    have hst : (runStep sid st (some raw)).store = st.store := by
      simp [runStep, hemp]
    rw [hst, hnil]
    simp [countFetch]
  · have hst : (runStep sid st (some raw)).store
        = save_entries st.store sid (procEntries st.dates raw).2.1 := by
      simp [runStep, hemp]
    rw [hst, countSD_save_entries]

theorem runPages_countSD_other (sid : String) (st : RunState)
    (ps : List (Option (List RawEntry))) (s : String) (d : Nat) (hs : s ≠ sid) :
    countSD (runPages sid st ps).store s d = countSD st.store s d := by
  induction ps generalizing st with
  | nil => rfl
  | cons p ps ih =>
      cases p with
      | none => exact ih (runStep sid st none)
      | some raw =>
          have := ih (runStep sid st (some raw))
          rw [show runPages sid st (some raw :: ps)
              = runPages sid (runStep sid st (some raw)) ps from rfl, this,
            countSD_runStep_some, if_neg hs, Nat.add_zero]

theorem runPages_countSD_mem (sid : String) (st : RunState)
    (ps : List (Option (List RawEntry))) (d : Nat)
    (h : InvR sid st) (hd : d ∈ st.dates) :
    countSD (runPages sid st ps).store sid d = countSD st.store sid d := by
  induction ps generalizing st with
  | nil => rfl
  | cons p ps ih =>
      have h' := InvR_runStep sid st p h
      cases p with
      | none => exact ih (runStep sid st none) h' hd
      | some raw =>
          have hd' : d ∈ (runStep sid st (some raw)).dates :=
            procEntries_dates_mono _ _ _ hd
          have hrest := ih (runStep sid st (some raw)) h' hd'
          have hcf := procEntries_countFetch_mem st.dates raw d hd
          rw [show runPages sid st (some raw :: ps)
              = runPages sid (runStep sid st (some raw)) ps from rfl, hrest,
            countSD_runStep_some, hcf]
          simp

theorem runPages_countSD_novel (sid : String) (st : RunState)
    (ps : List (Option (List RawEntry))) (d : Nat)
    (h : InvR sid st) (hd : d ∉ st.dates) :
    countSD (runPages sid st ps).store sid d
      = if d ∈ (runPages sid st ps).dates then 1 else 0 := by
  induction ps generalizing st with
  | nil =>
      show countSD st.store sid d = if d ∈ st.dates then 1 else 0
      rw [countSD_InvR_zero sid st d h hd]
      simp [hd]
  | cons p ps ih =>
      have h' := InvR_runStep sid st p h
      cases p with
      | none => exact ih (runStep sid st none) h' hd
      | some raw =>
          by_cases hd' : d ∈ (procEntries st.dates raw).1
          · have hz := countSD_InvR_zero sid st d h hd
            have hcf := procEntries_countFetch_novel st.dates raw d hd
            rw [if_pos hd'] at hcf
            have hstep : countSD (runStep sid st (some raw)).store sid d = 1 := by
              rw [countSD_runStep_some, hz, hcf]
              simp
            have hrest := runPages_countSD_mem sid (runStep sid st (some raw)) ps d h' hd'
            have hfin : d ∈ (runPages sid (runStep sid st (some raw)) ps).dates :=
              runPages_dates_mono sid _ ps d hd'
            rw [show runPages sid st (some raw :: ps)
                = runPages sid (runStep sid st (some raw)) ps from rfl, hrest,
              hstep, if_pos hfin]
          · exact ih (runStep sid st (some raw)) h' hd'

theorem runPages_dups_ge (sid : String) (st : RunState)
    (ps : List (Option (List RawEntry))) (d : Nat) :
    st.dups + countFetchPages d ps + (if d ∈ st.dates then 1 else 0)
      ≤ (runPages sid st ps).dups
        + (if d ∈ (runPages sid st ps).dates then 1 else 0) := by
  induction ps generalizing st with
  | nil => exact Nat.le_refl _
  | cons p ps ih =>
      cases p with
      | none =>
          have := ih (runStep sid st none)
          simpa [countFetchPages] using this
      | some raw =>
          have hpage := procEntries_dups_ge st.dates raw d
          have hrec := ih (runStep sid st (some raw))
          have hdup : (runStep sid st (some raw)).dups
              = st.dups + (procEntries st.dates raw).2.2 := rfl
          have hdat : (runStep sid st (some raw)).dates
              = (procEntries st.dates raw).1 := rfl
          rw [hdup, hdat] at hrec
          rw [show runPages sid st (some raw :: ps)
              = runPages sid (runStep sid st (some raw)) ps from rfl]
          simp only [countFetchPages, List.map_cons, List.sum_cons] at hrec ⊢
          by_cases h1 : d ∈ st.dates <;>
            by_cases h2 : d ∈ (procEntries st.dates raw).1 <;>
              simp [h1, h2] at hpage hrec ⊢ <;> omega

theorem runPages_saved_dups (sid : String) (st : RunState)
    (ps : List (Option (List RawEntry))) :
    (runPages sid st ps).saved + (runPages sid st ps).dups
      = st.saved + st.dups + totalFetched ps := by
  induction ps generalizing st with
  | nil => rfl
  | cons p ps ih =>
      cases p with
      | none =>
          have := ih (runStep sid st none)
          simpa [totalFetched] using this
      | some raw =>
          have hrec := ih (runStep sid st (some raw))
          have hs : (runStep sid st (some raw)).saved
              = st.saved + (procEntries st.dates raw).2.1.length := rfl
          have hd : (runStep sid st (some raw)).dups
              = st.dups + (procEntries st.dates raw).2.2 := rfl
          have hlen := procEntries_len st.dates raw
          rw [hs, hd] at hrec
          rw [show runPages sid st (some raw :: ps)
              = runPages sid (runStep sid st (some raw)) ps from rfl]
          simp only [totalFetched, List.map_cons, List.sum_cons] at hrec ⊢
          omega

theorem runPages_errs (sid : String) (st : RunState)
    (ps : List (Option (List RawEntry))) :
    (runPages sid st ps).errs = st.errs ++ pageErrors st.idx ps := by
  induction ps generalizing st with
  | nil =>
      show st.errs = st.errs ++ pageErrors st.idx []
      simp [pageErrors]
  | cons p ps ih =>
      cases p with
      | none =>
          have := ih (runStep sid st none)
          rw [show runPages sid st (none :: ps)
              = runPages sid (runStep sid st none) ps from rfl, this]
          rw [show (runStep sid st none).errs
              = st.errs ++ ["Failed to fetch page " ++ toString st.idx] from rfl]
          rw [show (runStep sid st none).idx = st.idx + 1 from rfl]
          simp [pageErrors]
      | some raw =>
          have := ih (runStep sid st (some raw))
          rw [show runPages sid st (some raw :: ps)
              = runPages sid (runStep sid st (some raw)) ps from rfl, this]
          rw [show (runStep sid st (some raw)).errs = st.errs from rfl]
          rw [show (runStep sid st (some raw)).idx = st.idx + 1 from rfl]
          simp [pageErrors]

theorem pageErrors_length (i : Nat) (ps : List (Option (List RawEntry))) :
    (pageErrors i ps).length = failedCount ps := by
  induction ps generalizing i with
  | nil => simp [pageErrors, failedCount]
  | cons p ps ih =>
      cases p with
      | none => simp [pageErrors, failedCount, List.filter_cons, ih (i + 1)]
      | some raw => simp [pageErrors, failedCount, List.filter_cons, ih (i + 1)]

theorem runPages_hasDay (sid : String) (st : RunState)
    (ps : List (Option (List RawEntry)))
    (h : ∀ x ∈ st.dates, hasDay st.store sid x = true) :
    ∀ x ∈ (runPages sid st ps).dates,
      hasDay (runPages sid st ps).store sid x = true := by
  induction ps generalizing st with
  | nil => exact h
  | cons p ps ih =>
      cases p with
      | none => exact ih (runStep sid st none) h
      | some raw =>
          apply ih (runStep sid st (some raw))
          intro x hx
          rcases (procEntries_dates_iff st.dates raw x).mp hx with hxd | ⟨e, he, hde⟩
          · by_cases hemp : (procEntries st.dates raw).2.1.isEmpty = true
            · have hst : (runStep sid st (some raw)).store = st.store := by
                simp [runStep, hemp]
              rw [hst]
              exact h x hxd
            · have hst : (runStep sid st (some raw)).store
                  = save_entries st.store sid (procEntries st.dates raw).2.1 := by
                simp [runStep, hemp]
              rw [hst, save_entries, hasDay_append, h x hxd]
              simp
          · have hne : (procEntries st.dates raw).2.1 ≠ [] := by
              intro hc
              rw [hc] at he
              cases he
            have hemp : (procEntries st.dates raw).2.1.isEmpty = false := by
              cases hcs : (procEntries st.dates raw).2.1 with
              | nil => exact absurd hcs hne
              | cons a as => rfl
            have hst : (runStep sid st (some raw)).store
                = save_entries st.store sid (procEntries st.dates raw).2.1 := by
              simp [runStep, hemp]
            rw [hst, save_entries, hasDay_append]
            have hb := mkBatch_hasDay sid st.store.length
              (procEntries st.dates raw).2.1 x ⟨e, he, hde⟩
            rw [hb]
            simp

theorem runPages_all_dup (sid : String) (st : RunState)
    (ps : List (Option (List RawEntry)))
    (h : ∀ raw, some raw ∈ ps → ∀ e ∈ raw, dayOf e.date_timestamp ∈ st.dates) :
    (runPages sid st ps).store = st.store
      ∧ (runPages sid st ps).dates = st.dates
      ∧ (runPages sid st ps).saved = st.saved
      ∧ (runPages sid st ps).dups = st.dups + totalFetched ps := by
  induction ps generalizing st with
  | nil => exact ⟨rfl, rfl, rfl, rfl⟩
  | cons p ps ih =>
      cases p with
      | none =>
          have := ih (runStep sid st none)
            (fun raw hr e he => h raw (List.mem_cons_of_mem _ hr) e he)
          simpa [totalFetched] using this
      | some raw =>
          have hall := h raw (List.mem_cons_self _ _)
          have hproc := procEntries_all_dup st.dates raw hall
          have hrec := ih (runStep sid st (some raw))
            (fun raw' hr e he => by
              have := h raw' (List.mem_cons_of_mem _ hr) e he
              show dayOf e.date_timestamp ∈ (procEntries st.dates raw).1
              rw [hproc]
              exact this)
          have hst : (runStep sid st (some raw)).store = st.store := by
            simp [runStep, hproc]
          have hdt : (runStep sid st (some raw)).dates = st.dates := by
            show (procEntries st.dates raw).1 = st.dates
            rw [hproc]
          have hsv : (runStep sid st (some raw)).saved = st.saved := by
            show st.saved + (procEntries st.dates raw).2.1.length = st.saved
            rw [hproc]
            rfl
          have hdp : (runStep sid st (some raw)).dups = st.dups + raw.length := by
            show st.dups + (procEntries st.dates raw).2.2 = st.dups + raw.length
            rw [hproc]
          rw [show runPages sid st (some raw :: ps)
              = runPages sid (runStep sid st (some raw)) ps from rfl]
          rw [hst, hdt, hsv, hdp] at hrec
          refine ⟨hrec.1, hrec.2.1, hrec.2.2.1, ?_⟩
          rw [hrec.2.2.2]
          simp only [totalFetched, List.map_cons, List.sum_cons]
          omega

/-- The run state at the start of `fetch_and_save_historical_data`: the store
baseline with the known-dates set computed from `find_by_stock_id` and all
counters at zero. -/
def initState (store : List HEntry) (sid : String) : RunState :=
  { store := store
    dates := (find_by_stock_id store sid).map (fun e => dayOf e.trading_date)
    saved := 0
    dups := 0
    errs := []
    idx := 0 }

theorem fetch_unfold (store : List HEntry) (sid : String)
    (pages : List (Option (List RawEntry))) :
    fetch_and_save_historical_data store sid pages
      = ((runPages sid (initState store sid) pages).store,
         { success := decide (0 < (runPages sid (initState store sid) pages).saved)
             || decide (0 < (runPages sid (initState store sid) pages).dups)
           entries_saved := (runPages sid (initState store sid) pages).saved
           duplicates_skipped := (runPages sid (initState store sid) pages).dups
           pages_fetched := pages.length
           errors :=
             if (runPages sid (initState store sid) pages).errs.isEmpty then none
             else some (runPages sid (initState store sid) pages).errs }) := rfl

theorem initState_dates_iff (store : List HEntry) (sid : String) (x : Nat) :
    x ∈ (initState store sid).dates ↔ hasDay store sid x = true :=
  mem_dates0 store sid x

theorem InvR_initState (store : List HEntry) (sid : String) :
    InvR sid (initState store sid) := by
  intro r hr h1 h2
  show dayOf r.trading_date
    ∈ (find_by_stock_id store sid).map (fun e => dayOf e.trading_date)
  rw [mem_dates0, hasDay_iff]
  exact ⟨r, hr, h1, h2, rfl⟩

theorem fetch_preserves_unique (store : List HEntry) (sid : String)
    (pages : List (Option (List RawEntry)))
    (h : ∀ s d, countSD store s d ≤ 1) :
    ∀ s d, countSD (fetch_and_save_historical_data store sid pages).1 s d ≤ 1 := by
  intro s d
  rw [fetch_unfold]
  by_cases hs : s = sid
  · rw [hs]
    by_cases hd : d ∈ (initState store sid).dates
    · rw [runPages_countSD_mem sid _ pages d (InvR_initState store sid) hd]
      exact h sid d
    · rw [runPages_countSD_novel sid _ pages d (InvR_initState store sid) hd]
      split
      · exact Nat.le_refl _
      · exact Nat.zero_le _
  · rw [runPages_countSD_other sid _ pages s d hs]
    exact h s d

theorem countFetchPages_pos (d : Nat) (pages : List (Option (List RawEntry)))
    (h : 0 < countFetchPages d pages) :
    ∃ raw, some raw ∈ pages ∧ ∃ e ∈ raw, dayOf e.date_timestamp = d := by
  induction pages with
  | nil => simp [countFetchPages] at h
  | cons p ps ih =>
      cases p with
      | none =>
          have hps : 0 < countFetchPages d ps := by
            simp only [countFetchPages, List.map_cons, List.sum_cons] at h
            simp only [countFetchPages]
            omega
          obtain ⟨raw, hp, hrest⟩ := ih hps
          exact ⟨raw, List.mem_cons_of_mem _ hp, hrest⟩
      | some raw =>
          by_cases hc : 0 < countFetch d raw
          · have hne : (raw.filter (fun e => dayOf e.date_timestamp == d)) ≠ [] := by
              intro hcontra
              rw [countFetch, hcontra] at hc
              cases hc
            obtain ⟨e, hef⟩ := List.exists_mem_of_ne_nil _ hne
            have := List.mem_filter.mp hef
            exact ⟨raw, List.mem_cons_self _ _, e, this.1, by simpa using this.2⟩
          · have hps : 0 < countFetchPages d ps := by
              simp only [countFetchPages, List.map_cons, List.sum_cons] at h
              simp only [countFetchPages]
              omega
            obtain ⟨raw', hp, hrest⟩ := ih hps
            exact ⟨raw', List.mem_cons_of_mem _ hp, hrest⟩

theorem fetch_novel_day_count (store : List HEntry) (sid : String)
    (pages : List (Option (List RawEntry))) (d : Nat)
    (h1 : hasDay store sid d = false) (h2 : 0 < countFetchPages d pages) :
    countSD (fetch_and_save_historical_data store sid pages).1 sid d = 1 := by
  have hd0 : d ∉ (initState store sid).dates := by
    rw [initState_dates_iff, h1]
    simp
  obtain ⟨raw, hp, e, he, hde⟩ := countFetchPages_pos d pages h2
  have hfin : d ∈ (runPages sid (initState store sid) pages).dates := by
    rw [← hde]
    exact runPages_fetched_mem sid _ pages raw e hp he
  rw [fetch_unfold]
  rw [runPages_countSD_novel sid _ pages d (InvR_initState store sid) hd0,
    if_pos hfin]

/-- C1: for every stock and every calendar day, after any sequence of
ingestion runs starting from a store with no duplicate days, the number of
persisted non-deleted historical rows for that (stock, day) pair is at
most 1. -/
theorem c1_at_most_one_entry_per_stock_day (store : List HEntry)
    (runs : List (String × List (Option (List RawEntry))))
    (h : ∀ s d, countSD store s d ≤ 1) :
    ∀ s d, countSD (applyRuns store runs) s d ≤ 1 := by
  induction runs generalizing store with
  | nil => exact h
  | cons run rest ih =>
      obtain ⟨sid, pages⟩ := run
      exact ih (fetch_and_save_historical_data store sid pages).1
        (fetch_preserves_unique store sid pages h)

def w1raw : RawEntry := ⟨"d", 100, "1", "1", "0,5", "1", "1", "1"⟩

theorem c1_at_most_one_entry_per_stock_day_witness :
    (∀ s d, countSD [] s d ≤ 1)
    ∧ ∀ s d, countSD (applyRuns [] [("s", [some [w1raw]])]) s d ≤ 1 :=
  ⟨fun _ _ => Nat.zero_le 1,
   c1_at_most_one_entry_per_stock_day [] [("s", [some [w1raw]])]
     (fun _ _ => Nat.zero_le 1)⟩

/-- C2: re-running ingestion with the same fetched pages saves nothing, counts
every fetched entry of the second run as a duplicate skipped, and still
reports success. -/
theorem c2_second_run_idempotent (store : List HEntry) (sid : String)
    (pages : List (Option (List RawEntry))) (h : 0 < totalFetched pages) :
    (fetch_and_save_historical_data
        (fetch_and_save_historical_data store sid pages).1 sid
        pages).2.entries_saved = 0
    ∧ (fetch_and_save_historical_data
        (fetch_and_save_historical_data store sid pages).1 sid
        pages).2.duplicates_skipped = totalFetched pages
    ∧ (fetch_and_save_historical_data
        (fetch_and_save_historical_data store sid pages).1 sid
        pages).2.success = true := by
  have hall : ∀ raw, some raw ∈ pages → ∀ e ∈ raw,
      dayOf e.date_timestamp
        ∈ (initState (fetch_and_save_historical_data store sid pages).1 sid).dates := by
    intro raw hp e he
    rw [initState_dates_iff]
    have hmem := runPages_fetched_mem sid (initState store sid) pages raw e hp he
    have hcov := runPages_hasDay sid (initState store sid) pages
      (fun x hx => (initState_dates_iff store sid x).mp hx)
      (dayOf e.date_timestamp) hmem
    exact hcov
  obtain ⟨hst, hdt, hsv, hdp⟩ := runPages_all_dup sid
    (initState (fetch_and_save_historical_data store sid pages).1 sid) pages hall
  refine ⟨?_, ?_, ?_⟩
  · show (runPages sid
        (initState (fetch_and_save_historical_data store sid pages).1 sid)
        pages).saved = 0
    rw [hsv]
    rfl
  · show (runPages sid
        (initState (fetch_and_save_historical_data store sid pages).1 sid)
        pages).dups = totalFetched pages
    rw [hdp]
    exact Nat.zero_add _
  · show (decide (0 < (runPages sid
        (initState (fetch_and_save_historical_data store sid pages).1 sid)
        pages).saved)
      || decide (0 < (runPages sid
        (initState (fetch_and_save_historical_data store sid pages).1 sid)
        pages).dups)) = true
    rw [hsv, hdp]
    have hz : (initState (fetch_and_save_historical_data store sid pages).1 sid).dups
        = 0 := rfl
    rw [hz, Nat.zero_add]
    simp [h]

def w2raw : RawEntry := ⟨"d", 100, "2", "2", "1,5", "2", "2", "2"⟩

theorem c2_second_run_idempotent_witness :
    0 < totalFetched [some [w2raw]]
    ∧ ((fetch_and_save_historical_data
          (fetch_and_save_historical_data [] "s" [some [w2raw]]).1 "s"
          [some [w2raw]]).2.entries_saved = 0
       ∧ (fetch_and_save_historical_data
          (fetch_and_save_historical_data [] "s" [some [w2raw]]).1 "s"
          [some [w2raw]]).2.duplicates_skipped = totalFetched [some [w2raw]]
       ∧ (fetch_and_save_historical_data
          (fetch_and_save_historical_data [] "s" [some [w2raw]]).1 "s"
          [some [w2raw]]).2.success = true) :=
  ⟨by decide, c2_second_run_idempotent [] "s" [some [w2raw]] (by decide)⟩

/-- C3: two raw entries of one run mapping to the same not-yet-persisted day
lead to exactly one persisted row for that day, the surplus being counted
among the duplicates skipped. -/
theorem c3_intra_run_dedup (store : List HEntry) (sid : String) (d : Nat)
    (pages : List (Option (List RawEntry)))
    (h1 : hasDay store sid d = false) (h2 : 2 ≤ countFetchPages d pages) :
    countSD (fetch_and_save_historical_data store sid pages).1 sid d = 1
    ∧ countFetchPages d pages - 1
        ≤ (fetch_and_save_historical_data store sid pages).2.duplicates_skipped := by
  refine ⟨fetch_novel_day_count store sid pages d h1 (by omega), ?_⟩
  have hge := runPages_dups_ge sid (initState store sid) pages d
  have hd0 : d ∉ (initState store sid).dates := by
    rw [initState_dates_iff, h1]
    simp
  obtain ⟨raw, hp, e, he, hde⟩ := countFetchPages_pos d pages (by omega)
  have hfin : d ∈ (runPages sid (initState store sid) pages).dates := by
    rw [← hde]
    exact runPages_fetched_mem sid _ pages raw e hp he
  rw [if_neg hd0, if_pos hfin] at hge
  show countFetchPages d pages - 1
    ≤ (runPages sid (initState store sid) pages).dups
  have hz : (initState store sid).dups = 0 := rfl
  omega

def w3a : RawEntry := ⟨"d1", 100, "3", "3", "1,0", "3", "3", "3"⟩

def w3b : RawEntry := ⟨"d2", 200, "4", "4", "2,0", "4", "4", "4"⟩

theorem c3_intra_run_dedup_witness :
    (hasDay [] "s" 0 = false ∧ 2 ≤ countFetchPages 0 [some [w3a, w3b]])
    ∧ (countSD (fetch_and_save_historical_data [] "s" [some [w3a, w3b]]).1 "s" 0 = 1
       ∧ countFetchPages 0 [some [w3a, w3b]] - 1
          ≤ (fetch_and_save_historical_data []
              "s" [some [w3a, w3b]]).2.duplicates_skipped) :=
  ⟨⟨by decide, by decide⟩,
   c3_intra_run_dedup [] "s" 0 [some [w3a, w3b]] (by decide) (by decide)⟩

/-- C5: a run whose fetch fails for a strict nonempty subset of pages does not
abort: it reports exactly one error message per failed page, persists each
non-failing page's novel days, and aggregates the counters over the
successfully fetched entries. -/
theorem c5_partial_failure_tolerance (store : List HEntry) (sid : String)
    (pages : List (Option (List RawEntry)))
    (h1 : failedCount pages < pages.length) (h2 : 0 < failedCount pages) :
    (fetch_and_save_historical_data store sid pages).2.errors
        = some (pageErrors 0 pages)
    ∧ (pageErrors 0 pages).length = failedCount pages
    ∧ (∀ d, hasDay store sid d = false → 0 < countFetchPages d pages
        → countSD (fetch_and_save_historical_data store sid pages).1 sid d = 1)
    ∧ (fetch_and_save_historical_data store sid pages).2.entries_saved
        + (fetch_and_save_historical_data store sid pages).2.duplicates_skipped
        = totalFetched pages
    ∧ (fetch_and_save_historical_data store sid pages).2.pages_fetched
        = pages.length := by
  have herr : (runPages sid (initState store sid) pages).errs
      = pageErrors 0 pages := by
    have := runPages_errs sid (initState store sid) pages
    simpa [initState] using this
  refine ⟨?_, pageErrors_length 0 pages,
    fun d hd hc => fetch_novel_day_count store sid pages d hd hc, ?_, rfl⟩
  · show (if (runPages sid (initState store sid) pages).errs.isEmpty then none
        else some (runPages sid (initState store sid) pages).errs)
      = some (pageErrors 0 pages)
    rw [herr]
    have hlen := pageErrors_length 0 pages
    have hne : (pageErrors 0 pages).isEmpty = false := by
      cases hpe : pageErrors 0 pages with
      | nil =>
          rw [hpe] at hlen
          simp at hlen
          omega
      | cons a as => rfl
    rw [hne]
    simp
  · have hsd := runPages_saved_dups sid (initState store sid) pages
    show (runPages sid (initState store sid) pages).saved
        + (runPages sid (initState store sid) pages).dups = totalFetched pages
    rw [hsd]
    have hz1 : (initState store sid).saved = 0 := rfl
    have hz2 : (initState store sid).dups = 0 := rfl
    omega

def w5a : RawEntry := ⟨"d1", 100, "5", "5", "1,0", "5", "5", "5"⟩

def w5b : RawEntry := ⟨"d2", 86500, "6", "6", "2,0", "6", "6", "6"⟩

theorem c5_partial_failure_tolerance_witness :
    (failedCount [some [w5a], none, some [w5b]] < 3
     ∧ 0 < failedCount [some [w5a], none, some [w5b]])
    ∧ (fetch_and_save_historical_data [] "s"
        [some [w5a], none, some [w5b]]).2.errors
        = some (pageErrors 0 [some [w5a], none, some [w5b]]) :=
  ⟨⟨by decide, by decide⟩,
   (c5_partial_failure_tolerance [] "s" [some [w5a], none, some [w5b]]
     (by decide) (by decide)).1⟩

theorem matchesFilters_deleted {α : Type} (m : ModelC α)
    (fs : List (α → Bool)) (r : α)
    (h : matchesFilters (fs ++ [fun r => (m.deletedAt r).isNone]) r = true) :
    m.deletedAt r = none := by
  rw [matchesFilters, List.all_append] at h
  rw [Bool.and_eq_true] at h
  have := h.2
  simp at this
  exact this

theorem find_by_deleted {α : Type} (m : ModelC α) (store : List α)
    (kwargs : List (String × Val)) (r : α) (h : r ∈ find_by m store kwargs) :
    m.deletedAt r = none := by
  unfold find_by at h
  exact matchesFilters_deleted m _ r (List.mem_filter.mp h).2

theorem find_one_by_deleted {α : Type} (m : ModelC α) (store : List α)
    (kwargs : List (String × Val)) (r : α)
    (h : find_one_by m store kwargs = Except.ok (some r)) :
    m.deletedAt r = none := by
  unfold find_one_by at h
  cases hfb : find_by m store kwargs with
  | nil =>
      rw [hfb] at h
      simp at h
  | cons a t =>
      cases t with
      | nil =>
          rw [hfb] at h
          simp at h
          rw [← h]
          exact find_by_deleted m store kwargs a (hfb ▸ List.mem_cons_self _ _)
      | cons b t' =>
          rw [hfb] at h
          simp at h

theorem get_all_filtered_mem {α : Type} {m : ModelC α} {store : List α}
    {filters : List (String × Cond)} {ob : Option String} {dsc : Bool} {r : α}
    (h : r ∈ get_all_filtered m store filters ob dsc) :
    r ∈ store.filter (matchesFilters
      ((fun r => (m.deletedAt r).isNone)
        :: filters.filterMap (fun kc => condFilter m kc.1 kc.2))) := by
  cases ob with
  | none => exact h
  | some k =>
      simp only [get_all_filtered] at h
      by_cases hk : (m.schema.contains k) = true
      · rw [if_pos hk] at h
        by_cases hd : dsc = true
        · rw [if_pos hd] at h
          exact (mem_sortOn _ _ _).mp h
        · rw [if_neg hd] at h
          exact (mem_sortOn _ _ _).mp h
      · rw [if_neg hk] at h
        exact h

theorem get_all_filtered_deleted {α : Type} (m : ModelC α) (store : List α)
    (filters : List (String × Cond)) (ob : Option String) (dsc : Bool) (r : α)
    (h : r ∈ get_all_filtered m store filters ob dsc) :
    m.deletedAt r = none := by
  have := (List.mem_filter.mp (get_all_filtered_mem h)).2
  rw [matchesFilters, List.all_cons, Bool.and_eq_true] at this
  have h1 := this.1
  simp at h1
  exact h1

theorem find_by_id_deleted {α : Type} (m : ModelC α) (store : List α)
    (i : String) (r : α) (h : find_by_id m store i = Except.ok (some r)) :
    m.deletedAt r = none := by
  unfold find_by_id at h
  cases hfb : store.filter (fun r => m.idOf r == i && (m.deletedAt r).isNone) with
  | nil =>
      rw [hfb] at h
      simp at h
  | cons a t =>
      cases t with
      | nil =>
          rw [hfb] at h
          simp at h
          have ha : a ∈ store.filter
              (fun r => m.idOf r == i && (m.deletedAt r).isNone) :=
            hfb ▸ List.mem_cons_self _ _
          have := (List.mem_filter.mp ha).2
          rw [Bool.and_eq_true] at this
          rw [← h]
          simpa using this.2
      | cons b t' =>
          rw [hfb] at h
          simp at h

theorem count_ignores_deleted {α : Type} (m : ModelC α) (store : List α)
    (kwargs : List (String × Val)) :
    count m store kwargs = count m (find_all m store) kwargs := by
  unfold count
  have : find_by m (find_all m store) kwargs = find_by m store kwargs := by
    unfold find_by find_all
    rw [List.filter_filter]
    apply List.filter_congr
    intro r _
    cases h : (m.deletedAt r).isNone with
    | false => simp [matchesFilters, List.all_append, h]
    | true => simp [matchesFilters, List.all_append, h]
  rw [this]

/-- C10: every repository read path (find_all, find_by, find_one_by,
get_all_filtered, count, and direct lookup by id) sees only records whose
deleted_at is unset; a soft-deleted record is invisible even to a direct id
lookup, and soft-deleted rows never influence count. -/
theorem c10_soft_delete_exclusion {α : Type} (m : ModelC α) (store : List α)
    (kwargs : List (String × Val)) (filters : List (String × Cond))
    (ob : Option String) (dsc : Bool) (i : String) :
    (∀ r ∈ find_all m store, m.deletedAt r = none)
    ∧ (∀ r ∈ find_by m store kwargs, m.deletedAt r = none)
    ∧ (∀ r, find_one_by m store kwargs = Except.ok (some r)
        → m.deletedAt r = none)
    ∧ (∀ r ∈ get_all_filtered m store filters ob dsc, m.deletedAt r = none)
    ∧ count m store kwargs = count m (find_all m store) kwargs
    ∧ (∀ r, find_by_id m store i = Except.ok (some r)
        → m.deletedAt r = none) := by
  refine ⟨?_, ?_, ?_, ?_, count_ignores_deleted m store kwargs, ?_⟩
  · intro r hr
    have := (List.mem_filter.mp hr).2
    simpa using this
  · exact fun r hr => find_by_deleted m store kwargs r hr
  · exact fun r hr => find_one_by_deleted m store kwargs r hr
  · exact fun r hr => get_all_filtered_deleted m store filters ob dsc r hr
  · exact fun r hr => find_by_id_deleted m store i r hr

def w10live : StockRec := ⟨"i1", "Live", "LIV3", none, none, none, none⟩

def w10dead : StockRec := ⟨"i2", "Dead", "DEA3", none, none, none, some 5⟩

theorem c10_soft_delete_exclusion_witness :
    w10live ∈ find_all stocksModel [w10live, w10dead]
    ∧ stocksModel.deletedAt w10live = none :=
  ⟨by decide,
   (c10_soft_delete_exclusion stocksModel [w10live, w10dead] [] [] none false
     "i2").1 w10live (by decide)⟩

def w8a : StockRec := ⟨"i1", "A", "AAA", none, none, none, none⟩

def w8b : StockRec := ⟨"i2", "B", "AAA", none, none, none, none⟩

/-- C8 (code bug evaluation): with two non-deleted records matching the
criteria, find_one_by raises MultipleResultsFound instead of returning the
first match, contradicting its docstring ("The first matching instance or
None if not found"); the claim's "never throws" fails on multiple matches. -/
theorem c8_find_one_by_raises_on_multiple :
    find_one_by stocksModel [w8a, w8b] [("code", Val.s "AAA")]
        = Except.error "MultipleResultsFound"
    ∧ w8a ∈ find_by stocksModel [w8a, w8b] [("code", Val.s "AAA")]
    ∧ w8b ∈ find_by stocksModel [w8a, w8b] [("code", Val.s "AAA")] :=
  ⟨rfl, by decide, by decide⟩

def c4old : HEntry := ⟨"h1", "s1", 0, "1,00", "1", "1", "1", "1", "1", none⟩

def c4new : HEntry :=
  ⟨"h2", "s1", 100 * 86400 + 50, "2,00", "2", "2", "2", "2", "2", none⟩

/-- C4 (code bug evaluation): the `$gte` / `$lte` range tags passed by
find_by_stock_id_and_date_range are not understood by get_all_filtered and
are silently dropped, so the query returns the stock's entries far outside
the requested inclusive window, contradicting the repository's own docstring
("Find historical data ... within a date range"). -/
theorem c4_range_filter_silently_dropped :
    find_by_stock_id_and_date_range [c4old, c4new] "s1" (90 * 86400)
        (100 * 86400 + 50) = [c4old, c4new]
    ∧ c4old.trading_date < 90 * 86400 :=
  ⟨by decide, by decide⟩

def c7null : StockRec := ⟨"i1", "N", "NUL3", none, none, none, none⟩

def c7filled : StockRec := ⟨"i2", "F", "FIL3", some "ACME", none, none, none⟩

/-- C7 counterexample: an `is_null` tagged condition is not one of the
operators the engine implements; it is silently ignored, so the query also
returns a record whose field is not null — refuting "the returned records are
exactly the non-deleted records satisfying it" for that operator. -/
theorem c7_counterexample :
    get_all_filtered stocksModel [c7null, c7filled]
        [("company", Cond.dct [("is_null", [])])] none false
        = [c7null, c7filled]
    ∧ c7filled.company ≠ none :=
  ⟨by decide, by decide⟩

/-- Whether a dict condition carries one of the two tags the engine actually
dispatches on (a literal is always supported). -/
def condSupported : Cond → Bool
  | Cond.lit _ => true
  | Cond.dct pairs =>
      (pairs.lookup "in_").isSome || (pairs.lookup "not_in").isSome

/-- Specification-side meaning of a supported condition: equality for a
literal, SQL membership for `in_`, SQL non-membership for `not_in`; an
unsupported dict constrains nothing. -/
def condSatisfied (a : Val) : Cond → Bool
  | Cond.lit v => eqTest a v
  | Cond.dct pairs =>
      match pairs.lookup "in_" with
      | some vs => inTest a vs
      | none =>
          match pairs.lookup "not_in" with
          | some vs => notInTest a vs
          | none => true

theorem filterMap_condFilter_all {α : Type} (m : ModelC α) (r : α) :
    ∀ (filters : List (String × Cond)),
      (∀ kc ∈ filters, m.schema.contains kc.1 = true ∧ condSupported kc.2 = true)
      → (filters.filterMap (fun kc => condFilter m kc.1 kc.2)).all (fun f => f r)
        = filters.all (fun kc => condSatisfied (m.attr r kc.1) kc.2)
  | [], _ => rfl
  | kc :: rest, h => by
      obtain ⟨hk, hsup⟩ := h kc (List.mem_cons_self _ _)
      have hmem : kc.1 ∈ m.schema := by simpa using hk
      have ihr := filterMap_condFilter_all m r rest
        (fun x hx => h x (List.mem_cons_of_mem _ hx))
      cases hc : kc.2 with
      | lit v =>
          have hcf : condFilter m kc.1 (Cond.lit v)
              = some (fun x => eqTest (m.attr x kc.1) v) := by
            simp [condFilter, hmem]
          simp only [List.filterMap_cons, hc, hcf, List.all_cons, ihr,
            condSatisfied]
      | dct pairs =>
          rcases hin : pairs.lookup "in_" with _ | vs
          · rcases hnin : pairs.lookup "not_in" with _ | vs'
            · rw [hc] at hsup
              simp [condSupported, hin, hnin] at hsup
            · have hcf : condFilter m kc.1 (Cond.dct pairs)
                  = some (fun x => notInTest (m.attr x kc.1) vs') := by
                simp [condFilter, hmem, hin, hnin]
              simp only [List.filterMap_cons, hc, hcf, List.all_cons, ihr,
                condSatisfied, hin, hnin]
          · have hcf : condFilter m kc.1 (Cond.dct pairs)
                = some (fun x => inTest (m.attr x kc.1) vs) := by
              simp [condFilter, hmem, hin]
            simp only [List.filterMap_cons, hc, hcf, List.all_cons, ihr,
              condSatisfied, hin]

/-- C7 (amended): the engine supports a literal value (equality), `in_` and
`not_in`; for filters built from these, the result is exactly the non-deleted
records satisfying every condition under SQL NULL comparison semantics.  The
spec's `is_null` / `is_not_null` operators do not exist: such tags append no
filter (see the counterexample). -/
theorem c7_amended_supported_filters {α : Type} (m : ModelC α) (store : List α)
    (filters : List (String × Cond))
    (h : ∀ kc ∈ filters,
      m.schema.contains kc.1 = true ∧ condSupported kc.2 = true) :
    get_all_filtered m store filters none false
      = store.filter (fun r => (m.deletedAt r).isNone
          && filters.all (fun kc => condSatisfied (m.attr r kc.1) kc.2)) := by
  show store.filter (matchesFilters ((fun r => (m.deletedAt r).isNone)
      :: filters.filterMap (fun kc => condFilter m kc.1 kc.2))) = _
  apply List.filter_congr
  intro r _
  rw [matchesFilters, List.all_cons]
  rw [filterMap_condFilter_all m r filters h]

theorem c7_amended_supported_filters_witness :
    (∀ kc ∈ [("company", Cond.dct [("in_", [Val.s "ACME"])])],
      stocksModel.schema.contains kc.1 = true ∧ condSupported kc.2 = true)
    ∧ get_all_filtered stocksModel [c7null, c7filled]
        [("company", Cond.dct [("in_", [Val.s "ACME"])])] none false
      = [c7null, c7filled].filter (fun r => r.deleted_at.isNone
          && [("company", Cond.dct [("in_", [Val.s "ACME"])])].all
              (fun kc => condSatisfied (stocksModel.attr r kc.1) kc.2)) :=
  ⟨by decide,
   c7_amended_supported_filters stocksModel [c7null, c7filled]
     [("company", Cond.dct [("in_", [Val.s "ACME"])])] (by decide)⟩

def c6inA : StockIn := ⟨"Alpha", some "AAA", none⟩

def c6inB : StockIn := ⟨"Beta", some "AAA", none⟩

/-- C6 counterexample: each input of bulk_create_stocks is checked only
against the persisted store, which is not updated until the one batch insert
at the end of the call, so an input list carrying two records with the same
absent code yields two inserted records with that code in a single call —
intra-batch duplicates are not filtered. -/
theorem c6_counterexample :
    (bulk_create_stocks [] [c6inA, c6inB]).map (fun p => p.1.map StockRec.code)
        = Except.ok ["AAA", "AAA"]
    ∧ c6inA.code = some "AAA" ∧ c6inB.code = some "AAA" :=
  ⟨rfl, rfl, rfl⟩

theorem find_by_code_of_unique (store : List StockRec) (c : String)
    (h : (store.filter (fun r => r.code == c && r.deleted_at.isNone)).length = 1) :
    ∃ x, find_by_code store c = Except.ok (some x) := by
  unfold find_by_code find_one_by
  rw [find_by_code_eq]
  cases hl : store.filter (fun r => r.code == c && r.deleted_at.isNone) with
  | nil =>
      rw [hl] at h
      simp at h
  | cons a t =>
      cases t with
      | nil => exact ⟨a, rfl⟩
      | cons b t' =>
          rw [hl] at h
          simp at h

theorem update_company_count (store : List StockRec) (ex : StockRec)
    (v : Option String) (c : String) :
    ((store.map (fun r =>
        if r.id == ex.id then { r with company := v } else r)).filter
      (fun r => r.code == c && r.deleted_at.isNone)).length
      = (store.filter (fun r => r.code == c && r.deleted_at.isNone)).length := by
  rw [List.filter_map, List.length_map]
  apply congrArg List.length
  apply List.filter_congr
  intro r _
  by_cases hid : r.id = ex.id
  · simp [hid]
  · simp [hid]

/-- Property of the staged list tracked through bulkLoop: every staged input
carries a code and that code is not the protected one. -/
def StagedOk (c : String) (staged : List StockIn) : Prop :=
  ∀ sd ∈ staged, sd.code ≠ none ∧ sd.code ≠ some c

theorem bulkLoop_staged_ok (c : String) :
    ∀ (inputs : List StockIn) (store : List StockRec) (staged : List StockIn),
      (store.filter (fun r => r.code == c && r.deleted_at.isNone)).length = 1
      → StagedOk c staged
      → ∀ store' staged',
          bulkLoop store staged inputs = Except.ok (store', staged')
          → StagedOk c staged'
  | [], store, staged => by
      intro h1 h2 store' staged' heq
      rw [bulkLoop] at heq
      cases heq
      exact h2
  | sd :: rest, store, staged => by
      intro h1 h2 store' staged' heq
      rw [bulkLoop] at heq
      cases hcode : sd.code with
      | none =>
          simp only [hcode] at heq
          exact bulkLoop_staged_ok c rest store staged h1 h2 store' staged' heq
      | some cX =>
          simp only [hcode] at heq
          cases hfb : find_by_code store cX with
          | error msg =>
              simp only [hfb] at heq
              cases heq
          | ok ores =>
              simp only [hfb] at heq
              cases ores with
              | some ex =>
                  by_cases hup : (truthy sd.company && !(truthy ex.company)) = true
                  · simp only [hup, if_true] at heq
                    have h1' := update_company_count store ex sd.company c
                    exact bulkLoop_staged_ok c rest _ staged (h1'.trans h1) h2
                      store' staged' heq
                  · rw [Bool.not_eq_true] at hup
                    simp only [hup, Bool.false_eq_true, if_false] at heq
                    exact bulkLoop_staged_ok c rest store staged h1 h2
                      store' staged' heq
              | none =>
                  have hne : cX ≠ c := by
                    intro hcc
                    obtain ⟨x, hx⟩ := find_by_code_of_unique store c h1
                    rw [hcc, hx] at hfb
                    cases hfb
                  have h2' : StagedOk c (staged ++ [sd]) := by
                    intro a ha
                    rcases List.mem_append.mp ha with hA | hB
                    · exact h2 a hA
                    · rw [List.mem_singleton] at hB
                      subst hB
                      rw [hcode]
                      exact ⟨by simp, by simpa using hne⟩
                  exact bulkLoop_staged_ok c rest store (staged ++ [sd]) h1 h2'
                    store' staged' heq

theorem mkStockBatch_mem {base : Nat} {staged : List StockIn} {r : StockRec}
    (h : r ∈ mkStockBatch base staged) :
    ∃ sd ∈ staged, r.code = sd.code.getD "" := by
  induction staged generalizing base with
  | nil => cases h
  | cons sd rest ih =>
      rcases List.mem_cons.mp h with rfl | h'
      · exact ⟨sd, List.mem_cons_self _ _, rfl⟩
      · obtain ⟨a, ha, hc⟩ := ih h'
        exact ⟨a, List.mem_cons_of_mem _ ha, hc⟩

/-- C6 (amended): a bulk creation call never inserts a record whose code is
already present as the unique non-deleted row of the store at call start —
existing codes only ever take the enrichment path.  Duplicates within the
input batch itself are, however, not filtered (see the counterexample). -/
theorem c6_amended_no_insert_of_existing_code (store : List StockRec)
    (inputs : List StockIn) (c : String)
    (h : (store.filter (fun r => r.code == c && r.deleted_at.isNone)).length = 1)
    (store' created : List StockRec)
    (heq : bulk_create_stocks store inputs = Except.ok (store', created)) :
    ∀ r ∈ created, r.code ≠ c := by
  unfold bulk_create_stocks at heq
  cases hbl : bulkLoop store [] inputs with
  | error msg =>
      rw [hbl] at heq
      cases heq
  | ok pr =>
      obtain ⟨storeL, staged⟩ := pr
      rw [hbl] at heq
      have hstag : StagedOk c staged :=
        bulkLoop_staged_ok c inputs store [] h (by intro a ha; cases ha)
          storeL staged hbl
      have hcreated : created = mkStockBatch storeL.length staged := by
        cases heq
        rfl
      intro r hr hcontra
      obtain ⟨sd, hsd, hcode⟩ := mkStockBatch_mem (hcreated ▸ hr)
      obtain ⟨hn, hnc⟩ := hstag sd hsd
      cases hsome : sd.code with
      | none => exact hn hsome
      | some cX =>
          rw [hsome] at hcode
          rw [hcode] at hcontra
          simp at hcontra
          rw [hcontra] at hsome
          exact hnc hsome

def w6ex : StockRec := ⟨"i1", "Existing", "AAA", none, none, none, none⟩

def w6inA : StockIn := ⟨"New", some "AAA", none⟩

def w6inB : StockIn := ⟨"Other", some "BBB", none⟩

def w6new : StockRec := ⟨"new1", "Other", "BBB", none, none, none, none⟩

theorem c6_amended_no_insert_of_existing_code_witness :
    (([w6ex].filter (fun r => r.code == "AAA" && r.deleted_at.isNone)).length = 1)
    ∧ ∀ r ∈ [w6new], r.code ≠ "AAA" :=
  ⟨by decide,
   c6_amended_no_insert_of_existing_code [w6ex] [w6inA, w6inB] "AAA" (by decide)
     ([w6ex] ++ [w6new]) [w6new] rfl⟩

theorem num_eq_mul_den (a : ℚ) : (a.num : ℚ) = a * (a.den : ℚ) := by
  have ha : ((a.den : ℚ)) ≠ 0 := by
    exact_mod_cast a.den_ne_zero
  have h := Rat.num_div_den a
  rw [div_eq_iff ha] at h
  exact h

theorem qSub_eq (a b : ℚ) : qSub a b = a - b := by
  have ha : ((a.den : ℚ)) ≠ 0 := by
    exact_mod_cast a.den_ne_zero
  have hb : ((b.den : ℚ)) ≠ 0 := by
    exact_mod_cast b.den_ne_zero
  rw [qSub, Rat.divInt_eq_div]
  push_cast
  field_simp
  rw [num_eq_mul_den a, num_eq_mul_den b]
  ring

theorem qMul_eq (a b : ℚ) : qMul a b = a * b := by
  have ha : ((a.den : ℚ)) ≠ 0 := by
    exact_mod_cast a.den_ne_zero
  have hb : ((b.den : ℚ)) ≠ 0 := by
    exact_mod_cast b.den_ne_zero
  rw [qMul, Rat.divInt_eq_div]
  push_cast
  field_simp
  rw [num_eq_mul_den a, num_eq_mul_den b]
  ring

theorem qDiv_eq (a b : ℚ) : qDiv a b = a / b := by
  rw [qDiv, Rat.divInt_eq_div]
  by_cases hbz : b = 0
  · simp [hbz]
  · have ha : ((a.den : ℚ)) ≠ 0 := by
      exact_mod_cast a.den_ne_zero
    have hb : ((b.den : ℚ)) ≠ 0 := by
      exact_mod_cast b.den_ne_zero
    have hbn : ((b.num : ℚ)) ≠ 0 :=
      Int.cast_ne_zero.mpr (Rat.num_ne_zero.mpr hbz)
    push_cast
    field_simp
    rw [num_eq_mul_den a, num_eq_mul_den b]
    ring

def w9a : HEntry := ⟨"h1", "s9", 100, "10,00", "10", "9", "8", "11", "100", none⟩

def w9b : HEntry := ⟨"h2", "s9", 86500, "12,50", "12", "10", "9", "13", "200", none⟩

/-- C9 (code bug evaluation): the variation computation can never run.
`find_latest_by_stock_id` dereferences `self.model`, an attribute that is
never assigned, so `get_price_variation` raises `AttributeError` on every
input — including the claim's own concrete scenario, shown here: its two
variation strings do parse (comma tolerated) to the claimed endpoint values,
and the claimed rounded arithmetic on those values does yield absolute 2.5
and percentage 25, yet the program never computes them. -/
theorem c9_price_variation_always_raises :
    get_price_variation [w9a, w9b] "s9" 30 = Except.error "AttributeError"
    ∧ parseDec "10,00" = some (mkRat 10 1)
    ∧ parseDec "12,50" = some (mkRat 25 2)
    ∧ round2 (mkRat 25 2 - mkRat 10 1) = mkRat 5 2
    ∧ round2 ((mkRat 25 2 - mkRat 10 1) / mkRat 10 1 * 100) = 25 := by
  refine ⟨rfl, by decide, by decide, ?_, ?_⟩
  · rw [← qSub_eq]
    decide
  · rw [← qSub_eq, ← qDiv_eq, ← qMul_eq]
    decide
